import Mathlib

/-!
Verification of the Sequence CRDT core of a realtime collaborative
Markdown editor.  The definitions below are shallow embeddings of the
Python sources:

* `Seq`  — `backend/crdt/node.py` and `backend/crdt/sequence.py`
  (the Logoot-style `SequenceCRDT`);
* `Opt`  — `backend/crdt/optimized_crdt.py`
  (the string-id `OptimizedSequenceCRDT`);
* `Mgr`  — the persistence / cache slices of `backend/ws_manager.py`
  and `backend/optimized_ws_manager.py`.

Python machine-independent `int` is modelled by `Int`; Python `str` by
`String` (comparison on both is lexicographic by code point, as in
Python).  `random.randint(a, b)` is modelled by an oracle parameter
`rand : Int → Int → Int` assumed to return a value in `[a, b]`;
`time.time()` by an explicit `now : Int` parameter; the length of
`json.dumps(...)` by an oracle parameter where the manager only
branches on it.  Dictionaries read with `.get` are modelled by
structures with `Option` fields.
-/

namespace Seq

/-- Position in the CRDT sequence (`node.py`, class `Position`):
an identifier list plus a site tag. -/
structure Position where
  identifiers : List Int
  site_id : String
deriving DecidableEq, Repr

/-- Python string comparison (`s < t`), lexicographic by code point,
as a structural recursion over the character lists. -/
def strLtChars : List Char → List Char → Bool
  | [], [] => false
  | [], _ :: _ => true
  | _ :: _, [] => false
  | a :: as, b :: bs =>
    if a < b then true
    else if b < a then false
    else strLtChars as bs

/-- Python `str.__lt__` on Lean strings. -/
def strLt (s t : String) : Bool := strLtChars s.data t.data

/-- Elementwise comparison of identifier lists, mirroring the loop of
`Position.__lt__`: `some b` when the lists decide the comparison (a
differing component, or a length difference), `none` when the lists are
identical and the site tag must break the tie. -/
def posIdsLt : List Int → List Int → Option Bool
  | [], [] => none
  | [], _ :: _ => some true
  | _ :: _, [] => some false
  | a :: as, b :: bs =>
    if a < b then some true
    else if b < a then some false
    else posIdsLt as bs

/-- Translation of `Position.__lt__`: identifier lists first (first
differing component, then shorter-list-first), tie broken by the site
tag string. -/
def posLt (p q : Position) : Bool :=
  match posIdsLt p.identifiers q.identifiers with
  | some b => b
  | none => strLt p.site_id q.site_id

/-- Translation of `Position.__eq__`: identifier lists and site tag
both equal. -/
def posEq (p q : Position) : Bool :=
  decide (p.identifiers = q.identifiers ∧ p.site_id = q.site_id)

/-- Character node of the sequence (`node.py`, class `CRDTNode`). -/
structure CRDTNode where
  position : Position
  value : String
  visible : Bool
deriving DecidableEq, Repr

/-- Translation of `CRDTNode.__lt__`: comparison of the positions. -/
def nodeLt (n m : CRDTNode) : Bool := posLt n.position m.position

/-- Operation tag plus payload node (`node.py`, class `CRDTOperation`;
the `op_type` strings `insert` / `delete` become constructors, any
other string raises in `apply_remote` and is not representable). -/
inductive SOp where
  | insert (node : CRDTNode)
  | delete (node : CRDTNode)
deriving DecidableEq, Repr

/-- State of `SequenceCRDT`: site id, node list, Lamport-ish clock. -/
structure SequenceCRDT where
  site_id : String
  nodes : List CRDTNode
  clock : Int
deriving DecidableEq, Repr

/-- Boundary begin node added by `_add_boundary_nodes`. -/
def beginNode : CRDTNode := ⟨⟨[0], "BEGIN"⟩, "", false⟩

/-- Boundary end node added by `_add_boundary_nodes`
(`2**31 - 1 = 2147483647`). -/
def endNode : CRDTNode := ⟨⟨[2147483647], "END"⟩, "", false⟩

/-- Translation of `SequenceCRDT.__init__`. -/
def init (site : String) : SequenceCRDT :=
  ⟨site, [beginNode, endNode], 0⟩

/-- Insertion of an element at a list index, appending when the index
is at or beyond the end (the behaviour of Python `list.insert`). -/
def insertAt {α : Type} : Nat → α → List α → List α
  | 0, x, l => x :: l
  | _ + 1, x, [] => [x]
  | n + 1, x, y :: l => y :: insertAt n x l

/-- Loop of Python `bisect.bisect_left` (`lo`/`hi` binary search with
`a[mid] < x`); out-of-range reads cannot occur while `hi` is at most
the list length. -/
def bisectLoop (a : List CRDTNode) (x : CRDTNode) :
    Nat → Nat → Nat → Nat
  | 0, lo, _ => lo
  | fuel + 1, lo, hi =>
    if lo < hi then
      let mid := (lo + hi) / 2
      if nodeLt (a.getD mid beginNode) x then bisectLoop a x fuel (mid + 1) hi
      else bisectLoop a x fuel lo mid
    else lo

/-- Translation of `bisect.bisect_left(self.nodes, node)`.  The loop is
fuelled with `a.length`: each iteration shrinks `hi - lo` by at least
one, so the fuel never runs out before the `lo < hi` guard fails and
the fuelled recursion equals the source's `while` loop. -/
def bisectLeft (a : List CRDTNode) (x : CRDTNode) : Nat :=
  bisectLoop a x a.length 0 a.length

/-- Scan of the node list for the first node whose position equals `p`,
setting its `visible` field to `v` (the loop shared by
`_apply_remote_insert` and `_apply_remote_delete`); `none` when no node
matches. -/
def setVisibleFirst : List CRDTNode → Position → Bool → Option (List CRDTNode)
  | [], _, _ => none
  | n :: ns, p, v =>
    if posEq n.position p then some ({ n with visible := v } :: ns)
    else (setVisibleFirst ns p v).map (n :: ·)

/-- Translation of `SequenceCRDT._apply_remote_insert`: an existing
node with the same position gets its visibility overwritten by the
operation's, otherwise the node is inserted at the `bisect_left`
index.  Always returns `true`. -/
def applyRemoteInsert (st : SequenceCRDT) (node : CRDTNode) :
    SequenceCRDT × Bool :=
  match setVisibleFirst st.nodes node.position node.visible with
  | some l => ({ st with nodes := l }, true)
  | none =>
    ({ st with nodes := insertAt (bisectLeft st.nodes node) node st.nodes },
     true)

/-- Translation of `SequenceCRDT._apply_remote_delete`: the first node
with a matching position is marked invisible; a missing node returns
`false` with the state unchanged (the delete is dropped). -/
def applyRemoteDelete (st : SequenceCRDT) (node : CRDTNode) :
    SequenceCRDT × Bool :=
  match setVisibleFirst st.nodes node.position false with
  | some l => ({ st with nodes := l }, true)
  | none => (st, false)

/-- Translation of `SequenceCRDT.apply_remote`. -/
def applyRemote (st : SequenceCRDT) (op : SOp) : SequenceCRDT × Bool :=
  match op with
  | .insert node => applyRemoteInsert st node
  | .delete node => applyRemoteDelete st node

/-- State after a remote apply, discarding the returned flag. -/
def applyR (st : SequenceCRDT) (op : SOp) : SequenceCRDT :=
  (applyRemote st op).1

/-- Translation of `SequenceCRDT.get_text`: concatenation of the values
of the visible nodes in list order. -/
def getText (st : SequenceCRDT) : String :=
  String.join (((st.nodes.filter (·.visible)).map (·.value)))

/-- Translation of `SequenceCRDT.get_visible_length`. -/
def visibleLength (st : SequenceCRDT) : Nat :=
  (st.nodes.filter (·.visible)).length

/-- Length of the identical prefix of two identifier lists: the `depth`
computed by the leading loop of `_generate_position_between`. -/
def commonLen : List Int → List Int → Nat
  | a :: as, b :: bs => if a = b then commonLen as bs + 1 else 0
  | _, _ => 0

/-- Translation of `SequenceCRDT._generate_position_between`.

`rand a b` stands for `random.randint(a, b)`; the clock is incremented
and returned alongside the new position, whose site tag is
`f"{site_id}_{clock}"`.  `2**16 = 65536`.  The Python guard
`if depth + 1 < len(pos1.identifiers)` before extending with
`pos1.identifiers[depth+1:]` is subsumed by `List.drop` returning `[]`
past the end. -/
def generatePositionBetween (rand : Int → Int → Int) (siteId : String)
    (clock : Int) (pos1 pos2 : Position) : Position × Int :=
  let clock' := clock + 1
  let d := commonLen pos1.identifiers pos2.identifiers
  let pre := pos1.identifiers.take d
  let newIds :=
    if d < pos1.identifiers.length then
      if d < pos2.identifiers.length then
        let l := pos1.identifiers.getD d 0
        let r := pos2.identifiers.getD d 0
        if r - l > 1 then pre ++ [rand (l + 1) (r - 1)]
        else pre ++ [l] ++ pos1.identifiers.drop (d + 1) ++ [rand 1 65536]
      else pre ++ pos1.identifiers.drop d ++ [rand 1 65536]
    else if d < pos2.identifiers.length then
      let r := pos2.identifiers.getD d 0
      if r > 1 then pre ++ [rand 1 (r - 1)]
      else pre ++ [0, rand 1 65536]
    else pre ++ [rand 1 65536]
  (⟨newIds, siteId ++ "_" ++ toString clock'⟩, clock')

/-- Translation of `SequenceCRDT.local_insert`.  An out-of-bounds index
returns `none` (the `ValueError` in the source, raised before any
mutation).  List indexing in the neighbour selection uses `getD` /
`getLast?`-with-default; in the source those accesses raise `IndexError`
only on states missing the two boundary nodes, which the theorems
exclude by hypothesis. -/
def localInsert (rand : Int → Int → Int) (st : SequenceCRDT)
    (index : Int) (value : String) : Option (SequenceCRDT × CRDTNode) :=
  if index < 0 ∨ index > (visibleLength st : Int) then none
  else
    let visibleNodes := st.nodes.filter (·.visible)
    let pos1pos2 : Position × Position :=
      if index = 0 then
        ((st.nodes.getD 0 beginNode).position,
         match visibleNodes with
         | [] => (st.nodes.getD 1 beginNode).position
         | v :: _ => v.position)
      else if index = (visibleNodes.length : Int) then
        ((match visibleNodes.getLast? with
          | some v => v.position
          | none => (st.nodes.getD 0 beginNode).position),
         (st.nodes.getLastD beginNode).position)
      else
        ((visibleNodes.getD (index.toNat - 1) beginNode).position,
         (visibleNodes.getD index.toNat beginNode).position)
    let pc := generatePositionBetween rand st.site_id st.clock
      pos1pos2.1 pos1pos2.2
    let newNode : CRDTNode := ⟨pc.1, value, true⟩
    let i := bisectLeft st.nodes newNode
    some ({ st with clock := pc.2, nodes := insertAt i newNode st.nodes },
          newNode)

/-- Mark the `k`-th visible node of the list invisible (the in-place
`node_to_delete.visible = False` of `local_delete`). -/
def markNthVisible : List CRDTNode → Nat → List CRDTNode
  | [], _ => []
  | n :: ns, k =>
    if n.visible then
      match k with
      | 0 => { n with visible := false } :: ns
      | k + 1 => n :: markNthVisible ns k
    else n :: markNthVisible ns k

/-- Fetch the `k`-th visible node of the list. -/
def getNthVisible : List CRDTNode → Nat → Option CRDTNode
  | [], _ => none
  | n :: ns, k =>
    if n.visible then
      match k with
      | 0 => some n
      | k + 1 => getNthVisible ns k
    else getNthVisible ns k

/-- Translation of `SequenceCRDT.local_delete`: bounds check against
the visible length, then the targeted visible node is tombstoned; the
returned operation carries the mutated (now invisible) node. -/
def localDelete (st : SequenceCRDT) (index : Int) :
    Option (SequenceCRDT × CRDTNode) :=
  let visibleNodes := st.nodes.filter (·.visible)
  if index < 0 ∨ index ≥ (visibleNodes.length : Int) then none
  else
    match getNthVisible st.nodes index.toNat with
    | some n =>
      some ({ st with nodes := markNthVisible st.nodes index.toNat },
            { n with visible := false })
    | none => none

/-- Serialized form of a `Position` (`Position.to_dict`). -/
structure PositionDict where
  identifiers : List Int
  site_id : String
deriving DecidableEq, Repr

/-- Serialized form of a `CRDTNode` (`CRDTNode.to_dict`). -/
structure NodeDict where
  position : PositionDict
  value : String
  visible : Bool
deriving DecidableEq, Repr

/-- Serialized form of a `SequenceCRDT` (`SequenceCRDT.to_dict`). -/
structure CrdtDict where
  site_id : String
  clock : Int
  nodes : List NodeDict
deriving DecidableEq, Repr

/-- Translation of `CRDTNode.to_dict`. -/
def nodeToDict (n : CRDTNode) : NodeDict :=
  ⟨⟨n.position.identifiers, n.position.site_id⟩, n.value, n.visible⟩

/-- Translation of `CRDTNode.from_dict`. -/
def nodeFromDict (d : NodeDict) : CRDTNode :=
  ⟨⟨d.position.identifiers, d.position.site_id⟩, d.value, d.visible⟩

/-- Translation of `SequenceCRDT.to_dict`. -/
def toDict (st : SequenceCRDT) : CrdtDict :=
  ⟨st.site_id, st.clock, st.nodes.map nodeToDict⟩

/-- Translation of `SequenceCRDT.from_dict`: the constructor's boundary
nodes are overwritten by the serialized node list, and the clock is
restored. -/
def fromDict (d : CrdtDict) : SequenceCRDT :=
  ⟨d.site_id, d.nodes.map nodeFromDict, d.clock⟩

end Seq

namespace Opt

/-- Character node of the optimized CRDT
(`optimized_crdt.py`, dataclass `CRDTNode`). -/
structure ONode where
  id : String
  char : String
  visible : Bool
  timestamp : Int
deriving DecidableEq, Repr

/-- Wire form of a node dictionary as read with `.get`: every field
optional, including the legacy `position` key that `apply_remote`
strips. -/
structure WireNode where
  id : Option String
  char : Option String
  visible : Option Bool
  timestamp : Option Int
  position : Option Int
deriving DecidableEq, Repr

/-- Wire form of an operation dictionary: a `type` string plus the
optional `node`, `node_id` and `position` keys. -/
structure WireOp where
  type : String
  node : Option WireNode
  node_id : Option String
  position : Option Int
deriving DecidableEq, Repr

/-- State of `OptimizedSequenceCRDT`.  `tombstones` is a Python `set`
used only through membership, insertion and difference; it is modelled
as a duplicate-free list.  `compaction_threshold` is the constant
`1000`. -/
structure OState where
  site_id : String
  sequence : List ONode
  tombstones : List String
  version : Int
  last_compaction : Int
  operations_since_compaction : Int
deriving DecidableEq, Repr

/-- Translation of `OptimizedSequenceCRDT.__init__` (at time `now`). -/
def initO (site : String) (now : Int) : OState :=
  ⟨site, [], [], 0, now, 0⟩

/-- Set insertion for the tombstone set (`set.add`). -/
def addTomb (t : List String) (x : String) : List String :=
  if x ∈ t then t else x :: t

/-- Concatenation of the characters of visible non-tombstoned nodes:
the loop of `get_text`. -/
def getTextAux : List ONode → List String → String
  | [], _ => ""
  | n :: ns, t =>
    (if n.visible && !(t.contains n.id) then n.char else "") ++ getTextAux ns t

/-- Translation of `OptimizedSequenceCRDT.get_text`. -/
def getText (st : OState) : String := getTextAux st.sequence st.tombstones

/-- Translation of `_find_insert_position`: index of the first node
whose id is lexicographically greater than `nodeId` (Python string
comparison), else the length. -/
def findInsertPosition (s : List ONode) (nodeId : String) : Nat :=
  match s with
  | [] => 0
  | n :: ns =>
    if Seq.strLt nodeId n.id then 0 else findInsertPosition ns nodeId + 1

/-- Mark the first node with the given id invisible (the
`for node in self.sequence: ... break` loop of the delete branch). -/
def markFirst : List ONode → String → List ONode
  | [], _ => []
  | n :: ns, i =>
    if n.id = i then { n with visible := false } :: ns
    else n :: markFirst ns i

/-- Translation of `_compact` at time `now`: a no-op within 60 seconds
of the previous compaction, otherwise invisible nodes with timestamps
at least 300 seconds old are dropped from the sequence and their ids
removed from the tombstone set. -/
def compact (now : Int) (st : OState) : OState :=
  if now - st.last_compaction < 60 then st
  else
    let cutoff := now - 300
    let kept := st.sequence.filter (fun n => n.visible || decide (n.timestamp > cutoff))
    let removed := (st.sequence.filter
      (fun n => !(n.visible || decide (n.timestamp > cutoff)))).map (·.id)
    { st with
      sequence := kept
      tombstones := st.tombstones.filter (fun i => !(removed.contains i))
      last_compaction := now
      operations_since_compaction := 0 }

/-- Post-mutation hook shared by every mutator: bump the operation
counter and compact once it reaches the threshold of 1000. -/
def bumpAndMaybeCompact (now : Int) (st : OState) : OState :=
  let st' := { st with
    operations_since_compaction := st.operations_since_compaction + 1 }
  if st'.operations_since_compaction ≥ 1000 then compact now st' else st'

/-- Normalization that `apply_remote` performs in place on the insert
node dictionary after the id/char check: default `visible` to `True`
and `timestamp` to `time.time()` (the `position` key was already
deleted). -/
def fillDefaults (now : Int) (n : WireNode) : WireNode :=
  { n with
    visible := some (n.visible.getD true)
    timestamp := some (n.timestamp.getD now) }

/-- Resolution of the delete target id: `operation.get("node_id")`,
falling back to `operation["node"]["id"]` when falsy (`None` or the
empty string), and failing when the result is still falsy. -/
def resolveDeleteId (op : WireOp) : Option String :=
  let fallback : Option String :=
    match op.node with
    | some n => match n.id with
      | some i => if i = "" then none else some i
      | none => none
    | none => none
  match op.node_id with
  | some s => if s = "" then fallback else some s
  | none => fallback

/-- Translation of `OptimizedSequenceCRDT.apply_remote` at time `now`.

The returned triple is the new state, the boolean result, and the
operation dictionary as left behind by the in-place mutations of the
insert branch (`del node_data['position']` and the `visible` /
`timestamp` defaults) — the caller keeps aliasing this dictionary. -/
def applyRemote (now : Int) (st : OState) (op : WireOp) :
    OState × Bool × WireOp :=
  if op.type = "insert" then
    match op.node with
    | none => (st, false, op)
    | some n0 =>
      let n1 := { n0 with position := none }
      match n1.id, n1.char with
      | some i, some c =>
        let n2 := fillDefaults now n1
        let node : ONode := ⟨i, c, n2.visible.getD true, n2.timestamp.getD now⟩
        if st.sequence.any (fun m => m.id = node.id) then
          (st, true, { op with node := some n2 })
        else
          let idx := findInsertPosition st.sequence node.id
          (bumpAndMaybeCompact now
            { st with sequence := Seq.insertAt idx node st.sequence },
           true, { op with node := some n2 })
      | _, _ => (st, false, { op with node := some n1 })
  else if op.type = "delete" then
    match resolveDeleteId op with
    | none => (st, false, op)
    | some i =>
      (bumpAndMaybeCompact now
        { st with
          tombstones := addTomb st.tombstones i
          sequence := markFirst st.sequence i },
       true, op)
  else (st, false, op)

/-- State after a remote apply, discarding flag and mutated operation. -/
def applyR (now : Int) (st : OState) (op : WireOp) : OState :=
  (applyRemote now st op).1

/-- Walk of the local-insert loop: find the list index of the
`position`-th visible non-tombstoned node (`none` reproduces the
`for`/`else` fallthrough, which appends). -/
def findInsertIdx : List ONode → List String → Int → Option Nat
  | [], _, _ => none
  | n :: ns, t, pos =>
    if pos = 0 then some 0
    else if n.visible && !(t.contains n.id) then
      (findInsertIdx ns t (pos - 1)).map (· + 1)
    else (findInsertIdx ns t pos).map (· + 1)

/-- Translation of `OptimizedSequenceCRDT.insert` at time `now`.  The
source wraps the body in `try/except` returning `None`, but no
statement in it can raise, so the model returns the operation
dictionary unconditionally. -/
def insertLocal (st : OState) (position : Int) (ch : String) (now : Int) :
    OState × WireOp :=
  let nodeId := st.site_id ++ ":" ++ toString st.version ++ ":" ++
    toString position
  let node : ONode := ⟨nodeId, ch, true, now⟩
  let idx := (findInsertIdx st.sequence st.tombstones position).getD
    st.sequence.length
  let st' := bumpAndMaybeCompact now
    { st with
      version := st.version + 1
      sequence := Seq.insertAt idx node st.sequence }
  (st', ⟨"insert", some ⟨some nodeId, some ch, some true, some now, none⟩,
         none, some position⟩)

/-- Walk of the local-delete loop: tombstone and hide the
`position`-th visible non-tombstoned node, returning its id. -/
def deleteWalk : List ONode → List String → Int →
    Option (List ONode × String)
  | [], _, _ => none
  | n :: ns, t, pos =>
    if n.visible && !(t.contains n.id) then
      if pos = 0 then some ({ n with visible := false } :: ns, n.id)
      else (deleteWalk ns t (pos - 1)).map (fun r => (n :: r.1, r.2))
    else (deleteWalk ns t pos).map (fun r => (n :: r.1, r.2))

/-- Translation of `OptimizedSequenceCRDT.delete` at time `now`:
`none` (the source's `return None`) when no visible node sits at the
given position, with the state unchanged. -/
def deleteLocal (st : OState) (position : Int) (now : Int) :
    OState × Option WireOp :=
  match deleteWalk st.sequence st.tombstones position with
  | none => (st, none)
  | some (seq', nid) =>
    (bumpAndMaybeCompact now
      { st with tombstones := addTomb st.tombstones nid, sequence := seq' },
     some ⟨"delete", none, some nid, some position⟩)

/-- Serialized form of an `ONode` (`CRDTNode.to_dict`, optimized). -/
structure ONodeDict where
  id : String
  char : String
  visible : Bool
  timestamp : Int
deriving DecidableEq, Repr

/-- Serialized form of an `OState` (`to_dict`). -/
structure ODict where
  site_id : String
  version : Int
  sequence : List ONodeDict
  tombstones : List String
deriving DecidableEq, Repr

/-- Translation of the optimized `CRDTNode.to_dict`. -/
def oNodeToDict (n : ONode) : ONodeDict := ⟨n.id, n.char, n.visible, n.timestamp⟩

/-- Translation of the optimized `CRDTNode.from_dict`. -/
def oNodeFromDict (d : ONodeDict) : ONode := ⟨d.id, d.char, d.visible, d.timestamp⟩

/-- Translation of `OptimizedSequenceCRDT.to_dict`. -/
def toDict (st : OState) : ODict :=
  ⟨st.site_id, st.version, st.sequence.map oNodeToDict, st.tombstones⟩

/-- Translation of `OptimizedSequenceCRDT.from_dict` loaded at time
`now`: the constructor resets `last_compaction` to `time.time()` and
`operations_since_compaction` to `0`; only site id, version, sequence
and tombstones are restored. -/
def fromDict (d : ODict) (now : Int) : OState :=
  ⟨d.site_id, d.sequence.map oNodeFromDict, d.tombstones, d.version, now, 0⟩

end Opt

namespace Mgr

/-- Association lookup in an insertion-ordered dictionary. -/
def lookupDoc {α : Type} : List (String × α) → String → Option α
  | [], _ => none
  | (k, v) :: l, d => if k = d then some v else lookupDoc l d

/-- Key deletion in an insertion-ordered dictionary (`del cache[k]`). -/
def eraseDoc {α : Type} : List (String × α) → String → List (String × α)
  | [], _ => []
  | (k, v) :: l, d => if k = d then l else (k, v) :: eraseDoc l d

/-- Lookup through the legacy `LRUCache.__getitem__`, which moves the
accessed key to the most-recent end of the ordered dictionary. -/
def lruGet {α : Type} (cache : List (String × α)) (d : String) :
    Option (α × List (String × α)) :=
  match lookupDoc cache d with
  | none => none
  | some v => some (v, eraseDoc cache d ++ [(d, v)])

/-- Translation of the legacy `ConnectionManager._save_document_state`
(`ws_manager.py`).  `dumpsLen` stands for
`len(json.dumps(crdt.to_dict()))`; `docFound` for the database holding
a row for the document.  The returned boolean records whether a write
was committed.  When the serialized state exceeds `5_242_880` bytes the
error is logged and the CRDT is deleted from the in-memory cache. -/
def saveDocumentState (dumpsLen : Seq.SequenceCRDT → Nat)
    (cache : List (String × Seq.SequenceCRDT)) (docId : String)
    (docFound : Bool) :
    List (String × Seq.SequenceCRDT) × Bool :=
  match lruGet cache docId with
  | none => (cache, false)
  | some (crdt, cache1) =>
    if dumpsLen crdt > 5242880 then (eraseDoc cache1 docId, false)
    else (cache1, docFound)

/-- Translation of the optimized
`OptimizedConnectionManager._save_document_state`
(`optimized_ws_manager.py`): an oversized state is logged and the
function returns with the cache untouched. -/
def saveDocumentStateO (dumpsLen : Opt.OState → Nat)
    (cache : List (String × Opt.OState)) (docId : String)
    (docFound : Bool) :
    List (String × Opt.OState) × Bool :=
  match lookupDoc cache docId with
  | none => (cache, false)
  | some crdt =>
    if dumpsLen crdt > 5242880 then (cache, false)
    else (cache, docFound)

/-- Translation of the cache-management skeleton of
`OptimizedConnectionManager._initialize_document_crdt`.  When the cache
already holds `max_cached_crdts = 20` documents, the first-inserted
entry (`next(iter(...))`) is saved and evicted before anything else —
even before the check whether the requested document is already cached.
`docFound` abstracts the database row lookup (`none` is the raised
`ValueError` when it is missing); `loaded` abstracts the CRDT obtained
from the stored state (or freshly constructed).  The optimized manager
never consults the subscriber sets when evicting. -/
def initializeDocumentCrdt (cache : List (String × Opt.OState))
    (docId : String) (docFound : Bool) (loaded : Opt.OState) :
    Option (List (String × Opt.OState)) :=
  let cache1 := if cache.length ≥ 20 then cache.drop 1 else cache
  if (cache1.map Prod.fst).contains docId then some cache1
  else if docFound then some (cache1 ++ [(docId, loaded)])
  else none

/-- Translation of the apply-and-broadcast slice of
`OptimizedConnectionManager._handle_operation`: the operation
dictionary received from the origin client is passed to
`crdt.apply_remote` (which mutates it in place) and, on success, that
same dictionary object is broadcast to the peers. -/
def handleOperation (now : Int) (crdt : Opt.OState) (op : Opt.WireOp) :
    Opt.OState × Option Opt.WireOp :=
  let r := Opt.applyRemote now crdt op
  (r.1, if r.2.1 then some r.2.2 else none)

end Mgr

namespace Seq

/-- Repeated application of the same remote operation. -/
def applyRepeat : Nat → SequenceCRDT → SOp → SequenceCRDT
  | 0, st, _ => st
  | n + 1, st, op => applyRepeat n (applyR st op) op

/-- The position `p` is nowhere visible in the state: every node
carrying it is tombstoned. -/
def invisAt (st : SequenceCRDT) (p : Position) : Prop :=
  ∀ m ∈ st.nodes, posEq m.position p = true → m.visible = false

instance (st : SequenceCRDT) (p : Position) : Decidable (invisAt st p) :=
  inferInstanceAs (Decidable
    (∀ m ∈ st.nodes, posEq m.position p = true → m.visible = false))

end Seq

namespace Opt

/-- Wire operation of an insert carrying the node dictionary `w`. -/
def insOpOf (w : WireNode) : WireOp := ⟨"insert", some w, none, none⟩

/-- Wire operation of a delete carrying `node_id = i`. -/
def delOpOf (i : String) : WireOp := ⟨"delete", none, some i, none⟩

/-- Repeated application of the same remote operation (optimized
variant, at a fixed time). -/
def applyRepeat : Nat → Int → OState → WireOp → OState
  | 0, _, st, _ => st
  | n + 1, now, st, op => applyRepeat n now (applyR now st op) op

end Opt

namespace Seq

theorem posEq_refl (p : Position) : posEq p p = true := by
  simp [posEq]

theorem posEq_iff {p q : Position} : posEq p q = true ↔ p = q := by
  cases p; cases q; simp [posEq, Position.mk.injEq]

theorem setVisibleFirst_idem {xs l : List CRDTNode} {p : Position} {v : Bool}
    (h : setVisibleFirst xs p v = some l) : setVisibleFirst l p v = some l := by
  induction xs generalizing l with
  | nil => simp [setVisibleFirst] at h
  | cons n ns ih =>
    by_cases hp : posEq n.position p = true
    · simp [setVisibleFirst, hp] at h
      subst h
      simp [setVisibleFirst, hp]
    · simp [setVisibleFirst, hp] at h
      obtain ⟨a, ha, rfl⟩ := h
      simp [setVisibleFirst, hp, ih ha]

theorem setVisibleFirst_none_insertAt {xs : List CRDTNode} {p : Position}
    {v : Bool} (q : CRDTNode) (i : Nat)
    (h : setVisibleFirst xs p v = none) (hq : posEq q.position p = true)
    (hv : q.visible = v) :
    setVisibleFirst (insertAt i q xs) p v = some (insertAt i q xs) := by
  induction i generalizing xs with
  | zero =>
    have hq' : ({ q with visible := v } : CRDTNode) = q := by
      cases q; simp_all
    simp [insertAt, setVisibleFirst, hq, hq']
  | succ i ih =>
    cases xs with
    | nil =>
      have hq' : ({ q with visible := v } : CRDTNode) = q := by
        cases q; simp_all
      simp [insertAt, setVisibleFirst, hq, hq']
    | cons n ns =>
      have hp : posEq n.position p = false := by
        by_cases hp : posEq n.position p = true
        · simp [setVisibleFirst, hp] at h
        · simpa using hp
      simp [setVisibleFirst, hp] at h
      simp [insertAt, setVisibleFirst, hp, ih h]

end Seq

/-- C2: behaviour of a delete arriving before its insert.  In the
legacy `SequenceCRDT` the delete of an unseen position returns `False`
and is dropped, so the subsequent insert makes the character visible.
In the `OptimizedSequenceCRDT` the delete id is buffered in the
tombstone set (returning `True`), the later insert stays hidden, and
the id is not consumed: it remains in the tombstone set. -/
theorem deferred_delete_behavior :
    (Seq.applyRemote (Seq.init "s")
      (.delete ⟨⟨[1], "A"⟩, "a", true⟩)).2 = false ∧
    Seq.getText (Seq.applyR (Seq.applyR (Seq.init "s")
      (.delete ⟨⟨[1], "A"⟩, "a", true⟩))
      (.insert ⟨⟨[1], "A"⟩, "a", true⟩)) = "a" ∧
    (Opt.applyRemote 0 (Opt.initO "s" 0) (Opt.delOpOf "X")).2.1 = true ∧
    Opt.getText (Opt.applyR 0 (Opt.applyR 0 (Opt.initO "s" 0)
      (Opt.delOpOf "X"))
      (Opt.insOpOf ⟨some "X", some "a", some true, some 0, none⟩)) = "" ∧
    "X" ∈ (Opt.applyR 0 (Opt.applyR 0 (Opt.initO "s" 0)
      (Opt.delOpOf "X"))
      (Opt.insOpOf ⟨some "X", some "a", some true, some 0, none⟩)).tombstones := by
  refine ⟨by decide, by decide, by decide, by decide, by decide⟩

/-- C2 counterexample: contrary to the claim, after `Delete(id=X)` on
an empty legacy CRDT followed by `Insert(node with id X, value "a")`,
the text is `"a"`, not the empty string — the early delete was dropped,
not buffered. -/
theorem deferred_delete_counterexample :
    Seq.getText (Seq.applyR (Seq.applyR (Seq.init "s")
      (.delete ⟨⟨[1], "A"⟩, "a", true⟩))
      (.insert ⟨⟨[1], "A"⟩, "a", true⟩)) ≠ "" := by
  decide

namespace Seq

theorem mem_of_mem_insertAt {x m : CRDTNode} :
    ∀ {i : Nat} {xs : List CRDTNode}, m ∈ insertAt i x xs → m = x ∨ m ∈ xs := by
  intro i
  induction i with
  | zero => intro xs h; simpa [insertAt] using h
  | succ i ih =>
    intro xs h
    cases xs with
    | nil => simpa [insertAt] using h
    | cons y l =>
      simp only [insertAt, List.mem_cons] at h
      rcases h with h | h
      · exact Or.inr (by simp [h])
      · rcases ih h with h | h
        · exact Or.inl h
        · exact Or.inr (by simp [h])

theorem mem_insertAt_of_mem {x m : CRDTNode} :
    ∀ {i : Nat} {xs : List CRDTNode}, m ∈ xs → m ∈ insertAt i x xs := by
  intro i
  induction i with
  | zero => intro xs h; simp [insertAt, h]
  | succ i ih =>
    intro xs h
    cases xs with
    | nil => simp at h
    | cons y l =>
      rcases List.mem_cons.mp h with h | h
      · simp [insertAt, h]
      · simp [insertAt, ih h]

theorem setVisibleFirst_preserves_invis {p q : Position} {v : Bool} :
    ∀ {xs l : List CRDTNode}, setVisibleFirst xs q v = some l →
    (v = false ∨ posEq q p = false) →
    (∀ m ∈ xs, posEq m.position p = true → m.visible = false) →
    ∀ m ∈ l, posEq m.position p = true → m.visible = false := by
  intro xs
  induction xs with
  | nil => intro l h; simp [setVisibleFirst] at h
  | cons n ns ih =>
    intro l h hcase hinv
    by_cases hq : posEq n.position q = true
    · simp only [setVisibleFirst, hq, if_pos] at h
      simp only [Option.some.injEq] at h
      subst h
      intro m hm hmp
      rcases List.mem_cons.mp hm with rfl | hm
      · rcases hcase with rfl | hcase
        · rfl
        · exfalso
          have h1 : n.position = q := posEq_iff.mp hq
          have h2 : n.position = p := posEq_iff.mp (by simpa using hmp)
          rw [h1] at h2
          rw [h2] at hcase
          simp [posEq_refl] at hcase
      · exact hinv m (List.mem_cons_of_mem n hm) hmp
    · simp only [setVisibleFirst, hq] at h
      rw [if_neg (by simp [hq])] at h
      rcases Option.map_eq_some'.mp h with ⟨a, ha, rfl⟩
      intro m hm hmp
      rcases List.mem_cons.mp hm with rfl | hm
      · exact hinv m (List.mem_cons_self _ _) hmp
      · exact ih ha hcase (fun m' hm' => hinv m' (List.mem_cons_of_mem n hm')) m hm hmp

theorem mem_markNthVisible {m : CRDTNode} :
    ∀ {xs : List CRDTNode} {k : Nat},
      m ∈ markNthVisible xs k → m ∈ xs ∨ m.visible = false := by
  intro xs
  induction xs with
  | nil => intro k h; simp [markNthVisible] at h
  | cons n ns ih =>
    intro k h
    by_cases hv : n.visible = true
    · cases k with
      | zero =>
        simp only [markNthVisible, hv, if_pos] at h
        rcases List.mem_cons.mp h with rfl | h
        · exact Or.inr rfl
        · exact Or.inl (List.mem_cons_of_mem n h)
      | succ k =>
        simp only [markNthVisible, hv, if_pos] at h
        rcases List.mem_cons.mp h with rfl | h
        · exact Or.inl (List.mem_cons_self _ _)
        · rcases ih h with h | h
          · exact Or.inl (List.mem_cons_of_mem n h)
          · exact Or.inr h
    · simp only [markNthVisible] at h
      rw [if_neg hv] at h
      rcases List.mem_cons.mp h with rfl | h
      · exact Or.inl (List.mem_cons_self _ _)
      · rcases ih h with h | h
        · exact Or.inl (List.mem_cons_of_mem n h)
        · exact Or.inr h

/-- C4 (amended): once a position is tombstoned in the legacy
`SequenceCRDT`, a remote delete, a remote insert at a *different*
position, and a local delete all keep it tombstoned, and a local insert
keeps every existing node (its flag included) verbatim.  The carve-out
the counterexample forces: a remote insert *replaying the same
position* overwrites the flag with the operation's `visible` value and
can resurrect the node. -/
theorem tombstone_monotonicity_amended (st : SequenceCRDT) (p : Position)
    (hinv : invisAt st p) :
    (∀ n : CRDTNode, invisAt (applyR st (.delete n)) p) ∧
    (∀ n : CRDTNode, posEq n.position p = false →
      invisAt (applyR st (.insert n)) p) ∧
    (∀ i : Int, ∀ r ∈ localDelete st i, invisAt r.1 p) ∧
    (∀ (rand : Int → Int → Int) (i : Int) (v : String),
      ∀ r ∈ localInsert rand st i v, ∀ m ∈ st.nodes, m ∈ r.1.nodes) := by
  refine ⟨fun n => ?_, fun n hne => ?_, fun i r hr => ?_, fun rand i v r hr m hm => ?_⟩
  · show invisAt (applyRemoteDelete st n).1 p
    unfold applyRemoteDelete
    cases h : setVisibleFirst st.nodes n.position false with
    | some l =>
      intro m hm hmp
      exact setVisibleFirst_preserves_invis h (Or.inl rfl) hinv m hm hmp
    | none => exact hinv
  · show invisAt (applyRemoteInsert st n).1 p
    unfold applyRemoteInsert
    cases h : setVisibleFirst st.nodes n.position n.visible with
    | some l =>
      intro m hm hmp
      exact setVisibleFirst_preserves_invis h (Or.inr hne) hinv m hm hmp
    | none =>
      intro m hm hmp
      rcases mem_of_mem_insertAt hm with rfl | hm
      · rw [hmp] at hne; cases hne
      · exact hinv m hm hmp
  · simp only [localDelete] at hr
    by_cases hb : i < 0 ∨ i ≥ ((List.filter (fun x => x.visible) st.nodes).length : Int)
    · rw [if_pos hb] at hr
      simp at hr
    · rw [if_neg hb] at hr
      cases heq : getNthVisible st.nodes i.toNat with
      | none =>
        rw [heq] at hr
        simp at hr
      | some n =>
        rw [heq] at hr
        simp only [Option.mem_def, Option.some.injEq] at hr
        subst hr
        intro m hm hmp
        rcases mem_markNthVisible hm with hm | hm
        · exact hinv m hm hmp
        · exact hm
  · unfold localInsert at hr
    split at hr
    · simp at hr
    · simp only [Option.mem_def, Option.some.injEq] at hr
      subst hr
      exact mem_insertAt_of_mem hm

end Seq

/-- C4 counterexample: on the legacy `SequenceCRDT`, after inserting a
node and deleting it (text becomes empty, the node is tombstoned),
replaying the very same insert operation flips the node's `visible`
field back to `true`: the node is again a visible member and the text
is `"a"`. -/
theorem tombstone_resurrection_counterexample :
    Seq.getText (Seq.applyR (Seq.applyR (Seq.init "s")
      (.insert ⟨⟨[1], "A"⟩, "a", true⟩)) (.delete ⟨⟨[1], "A"⟩, "a", true⟩)) = "" ∧
    (⟨⟨[1], "A"⟩, "a", true⟩ : Seq.CRDTNode) ∈
      (Seq.applyR (Seq.applyR (Seq.applyR (Seq.init "s")
        (.insert ⟨⟨[1], "A"⟩, "a", true⟩)) (.delete ⟨⟨[1], "A"⟩, "a", true⟩))
        (.insert ⟨⟨[1], "A"⟩, "a", true⟩)).nodes ∧
    Seq.getText (Seq.applyR (Seq.applyR (Seq.applyR (Seq.init "s")
      (.insert ⟨⟨[1], "A"⟩, "a", true⟩)) (.delete ⟨⟨[1], "A"⟩, "a", true⟩))
      (.insert ⟨⟨[1], "A"⟩, "a", true⟩)) = "a" := by
  refine ⟨by decide, by decide, by decide⟩

/-- C4 witness: the amended monotonicity theorem applied to a concrete
one-node tombstoned state. -/
theorem tombstone_monotonicity_amended_witness :
    Seq.invisAt (Seq.applyR ⟨"s", [⟨⟨[2], "B"⟩, "b", false⟩], 0⟩
      (.delete ⟨⟨[2], "B"⟩, "b", true⟩)) ⟨[2], "B"⟩ ∧
    Seq.invisAt (Seq.applyR ⟨"s", [⟨⟨[2], "B"⟩, "b", false⟩], 0⟩
      (.insert ⟨⟨[3], "C"⟩, "c", true⟩)) ⟨[2], "B"⟩ :=
  ⟨(Seq.tombstone_monotonicity_amended ⟨"s", [⟨⟨[2], "B"⟩, "b", false⟩], 0⟩
      ⟨[2], "B"⟩ (by decide)).1 _,
   (Seq.tombstone_monotonicity_amended ⟨"s", [⟨⟨[2], "B"⟩, "b", false⟩], 0⟩
      ⟨[2], "B"⟩ (by decide)).2.1 _ (by decide)⟩

namespace Seq

theorem nodeFromDict_toDict (n : CRDTNode) : nodeFromDict (nodeToDict n) = n := by
  cases n with
  | mk pos v b => cases pos; rfl

end Seq

namespace Opt

theorem oNodeFromDict_toDict (n : ONode) : oNodeFromDict (oNodeToDict n) = n := by
  cases n; rfl

end Opt

/-- C6 (amended): serialization round-trips.  The legacy
`SequenceCRDT` round-trips its entire state (`from_dict (to_dict c) = c`),
so text and every subsequent operation agree.  The optimized CRDT
round-trips sequence, tombstones — hence `text()` — but resets its
compaction bookkeeping: the operation counter restarts at `0` and
`last_compaction` at the load time, which the counterexample exploits
to make the two replicas diverge after further operations. -/
theorem snapshot_roundtrip_amended :
    (∀ c : Seq.SequenceCRDT, Seq.fromDict (Seq.toDict c) = c) ∧
    (∀ (o : Opt.OState) (now : Int),
      (Opt.fromDict (Opt.toDict o) now).sequence = o.sequence ∧
      (Opt.fromDict (Opt.toDict o) now).tombstones = o.tombstones ∧
      Opt.getText (Opt.fromDict (Opt.toDict o) now) = Opt.getText o ∧
      (Opt.fromDict (Opt.toDict o) now).operations_since_compaction = 0 ∧
      (Opt.fromDict (Opt.toDict o) now).last_compaction = now) := by
  have hn : Seq.nodeFromDict ∘ Seq.nodeToDict = id :=
    funext Seq.nodeFromDict_toDict
  have ho : Opt.oNodeFromDict ∘ Opt.oNodeToDict = id :=
    funext Opt.oNodeFromDict_toDict
  constructor
  · intro c
    cases c with
    | mk site nodes clock =>
      simp [Seq.fromDict, Seq.toDict, List.map_map, hn]
  · intro o now
    refine ⟨?_, rfl, ?_, rfl, rfl⟩
    · simp [Opt.fromDict, Opt.toDict, List.map_map, ho]
    · simp [Opt.getText, Opt.fromDict, Opt.toDict, List.map_map, ho]

/-- C6 counterexample: the optimized CRDT's round-trip resets
`operations_since_compaction` to 0, so a state that is one operation
away from compaction diverges from its round-tripped copy: after the
same delete (which triggers compaction only in the original, dropping
the tombstone for "Y") followed by the same re-insert of "Y", the
original shows `"x"` while the round-tripped copy shows `""`. -/
theorem roundtrip_divergence_counterexample :
    Opt.getText
      (Opt.applyR 1000 (Opt.applyR 1000
        (⟨"s", [⟨"Y", "x", false, 0⟩], ["Y"], 0, 0, 999⟩ : Opt.OState)
        (Opt.delOpOf "Z"))
        (Opt.insOpOf ⟨some "Y", some "x", some true, some 1000, none⟩)) = "x" ∧
    Opt.getText
      (Opt.applyR 1000 (Opt.applyR 1000
        (Opt.fromDict (Opt.toDict
          (⟨"s", [⟨"Y", "x", false, 0⟩], ["Y"], 0, 0, 999⟩ : Opt.OState)) 1000)
        (Opt.delOpOf "Z"))
        (Opt.insOpOf ⟨some "Y", some "x", some true, some 1000, none⟩)) = "" := by
  refine ⟨by decide, by decide⟩

/-- C10: the optimized `apply_remote` hands back the insert operation
with its node dictionary mutated — `position` removed, `visible` and
`timestamp` defaulted — and `_handle_operation` broadcasts exactly that
mutated dictionary; whenever the received node carried a `position`
key, the broadcast operation differs from the one received. -/
theorem handle_operation_broadcasts_mutated :
    (∀ (now : Int) (st : Opt.OState) (op : Opt.WireOp) (w : Opt.WireNode)
       (i c : String),
      op.type = "insert" → op.node = some w → w.id = some i → w.char = some c →
      (Mgr.handleOperation now st op).2 =
        some { op with
          node := some (Opt.fillDefaults now { w with position := none }) }) ∧
    (∀ (now : Int) (w : Opt.WireNode), w.position ≠ none →
      Opt.fillDefaults now { w with position := none } ≠ w) := by
  constructor
  · intro now st op w i c htype hnode hid hchar
    simp only [Mgr.handleOperation, Opt.applyRemote, htype, hnode, if_pos]
    have hid' : ({ w with position := none } : Opt.WireNode).id = some i := hid
    have hchar' : ({ w with position := none } : Opt.WireNode).char = some c := hchar
    rw [hid', hchar']
    dsimp only
    by_cases hdup : (st.sequence.any fun m => m.id = i) = true
    · simp [hdup]
    · simp [hdup]
  · intro now w hpos heq
    apply hpos
    have := congrArg Opt.WireNode.position heq
    simpa [Opt.fillDefaults] using this.symm

/-- C10 witness: the theorem applied to a concrete insert whose node
dictionary still carries the legacy `position` key and lacks
`visible`/`timestamp`. -/
theorem handle_operation_broadcasts_mutated_witness :
    (Mgr.handleOperation 0 (Opt.initO "s" 0)
      ⟨"insert", some ⟨some "X", some "a", none, none, some 3⟩, none, some 3⟩).2 =
      some ⟨"insert", some ⟨some "X", some "a", some true, some 0, none⟩,
        none, some 3⟩ ∧
    Opt.fillDefaults 0
      ({ (⟨some "X", some "a", none, none, some 3⟩ : Opt.WireNode) with
         position := none }) ≠ ⟨some "X", some "a", none, none, some 3⟩ :=
  ⟨(handle_operation_broadcasts_mutated.1 0 (Opt.initO "s" 0)
      ⟨"insert", some ⟨some "X", some "a", none, none, some 3⟩, none, some 3⟩
      ⟨some "X", some "a", none, none, some 3⟩ "X" "a"
      rfl rfl rfl rfl).trans (by decide),
   handle_operation_broadcasts_mutated.2 0
     ⟨some "X", some "a", none, none, some 3⟩ (by decide)⟩

namespace Seq

theorem self_mem_insertAt {α : Type} (x : α) :
    ∀ (i : Nat) (xs : List α), x ∈ insertAt i x xs := by
  intro i
  induction i with
  | zero => intro xs; simp [insertAt]
  | succ i ih =>
    intro xs
    cases xs with
    | nil => simp [insertAt]
    | cons y l => simp [insertAt, ih l]

theorem getNthVisible_isSome :
    ∀ {xs : List CRDTNode} {k : Nat},
      k < (xs.filter (·.visible)).length → (getNthVisible xs k).isSome = true := by
  intro xs
  induction xs with
  | nil => intro k h; simp at h
  | cons n ns ih =>
    intro k h
    by_cases hv : n.visible = true
    · cases k with
      | zero => simp [getNthVisible, hv]
      | succ k =>
        simp only [List.filter_cons, hv, if_pos, List.length_cons,
          Nat.succ_lt_succ_iff] at h
        simpa [getNthVisible, hv] using ih h
    · simp only [List.filter_cons] at h
      rw [if_neg (by simpa using hv)] at h
      simpa [getNthVisible, hv] using ih h

end Seq

namespace Opt

theorem deleteWalk_isSome :
    ∀ (xs : List ONode) (t : List String) (pos : Int),
      (deleteWalk xs t pos).isSome = true ↔
        0 ≤ pos ∧ pos <
          ((xs.filter fun n => n.visible && !(t.contains n.id)).length : Int) := by
  intro xs
  induction xs with
  | nil =>
    intro t pos
    simp [deleteWalk]
  | cons n ns ih =>
    intro t pos
    by_cases h1 : n.visible = true
    · by_cases h2 : n.id ∈ t
      · have hc : (n.visible && !(t.contains n.id)) = false := by simp [h1, h2]
        simp only [deleteWalk, List.filter_cons]
        rw [hc]
        simpa [Option.isSome_map'] using ih t pos
      · have hc : (n.visible && !(t.contains n.id)) = true := by simp [h1, h2]
        by_cases hp : pos = 0
        · subst hp
          simp only [deleteWalk, List.filter_cons]
          rw [hc]
          simp
        · have ih' := ih t (pos - 1)
          simp only [deleteWalk, List.filter_cons]
          rw [hc]
          simp only [Option.isSome_map', List.length_cons, if_pos rfl,
            if_true, if_neg hp]
          rw [ih']
          push_cast
          omega
    · have hc : (n.visible && !(t.contains n.id)) = false := by simp [h1]
      simp only [deleteWalk, List.filter_cons]
      rw [hc]
      simpa [Option.isSome_map'] using ih t pos

theorem visible_mem_compact {n : ONode} {st : OState} {now : Int}
    (hv : n.visible = true) (hm : n ∈ st.sequence) :
    n ∈ (compact now st).sequence := by
  unfold compact
  split
  · exact hm
  · exact List.mem_filter.mpr ⟨hm, by simp [hv]⟩

theorem visible_mem_bump {n : ONode} {st : OState} {now : Int}
    (hv : n.visible = true) (hm : n ∈ st.sequence) :
    n ∈ (bumpAndMaybeCompact now st).sequence := by
  unfold bumpAndMaybeCompact
  dsimp only
  split
  · exact visible_mem_compact hv hm
  · exact hm

end Opt

/-- C7 (amended): bounds behaviour of the local edit operations.  The
legacy `SequenceCRDT` enforces the claimed bounds exactly: on states
still carrying their two boundary nodes, `local_insert` succeeds iff
`0 ≤ index ≤ visibleLength`, and `local_delete` succeeds iff
`0 ≤ index < visibleLength`, the failure (`ValueError`) occurring
before any mutation.  The optimized CRDT's `delete` also succeeds
exactly in bounds and leaves the state untouched otherwise; but the
counterexample forces the carve-out that `OptimizedSequenceCRDT.insert`
performs no bounds check at all: it succeeds for every index, the new
node always landing in the sequence (appended at the end when the
index is out of range). -/
theorem local_edit_bounds_amended :
    (∀ (rand : Int → Int → Int) (st : Seq.SequenceCRDT) (i : Int) (v : String),
      2 ≤ st.nodes.length →
      ((Seq.localInsert rand st i v).isSome = true ↔
        0 ≤ i ∧ i ≤ (Seq.visibleLength st : Int))) ∧
    (∀ (st : Seq.SequenceCRDT) (i : Int),
      (Seq.localDelete st i).isSome = true ↔
        0 ≤ i ∧ i < ((st.nodes.filter (·.visible)).length : Int)) ∧
    (∀ (st : Opt.OState) (i : Int) (now : Int),
      ((Opt.deleteLocal st i now).2.isSome = true ↔
        0 ≤ i ∧ i <
          ((st.sequence.filter fun n =>
            n.visible && !(st.tombstones.contains n.id)).length : Int)) ∧
      ((Opt.deleteLocal st i now).2 = none → (Opt.deleteLocal st i now).1 = st)) ∧
    (∀ (st : Opt.OState) (pos : Int) (ch : String) (now : Int),
      (Opt.insertLocal st pos ch now).2 =
        ⟨"insert", some ⟨some (st.site_id ++ ":" ++ toString st.version ++ ":" ++
          toString pos), some ch, some true, some now, none⟩, none, some pos⟩ ∧
      (⟨st.site_id ++ ":" ++ toString st.version ++ ":" ++ toString pos,
        ch, true, now⟩ : Opt.ONode) ∈ (Opt.insertLocal st pos ch now).1.sequence) := by
  refine ⟨fun rand st i v _ => ?_, fun st i => ?_, fun st i now => ⟨?_, ?_⟩,
    fun st pos ch now => ⟨rfl, ?_⟩⟩
  · by_cases hb : i < 0 ∨ i > (Seq.visibleLength st : Int)
    · simp [Seq.localInsert, hb]
      omega
    · simp [Seq.localInsert, hb]
      omega
  · by_cases hb : i < 0 ∨ i ≥ ((st.nodes.filter (·.visible)).length : Int)
    · simp only [Seq.localDelete]
      rw [if_pos (by simpa using hb)]
      simp
      omega
    · simp only [Seq.localDelete]
      rw [if_neg (by simpa using hb)]
      have hlt : i.toNat < (st.nodes.filter (·.visible)).length := by omega
      cases heq : Seq.getNthVisible st.nodes i.toNat with
      | none =>
        have := Seq.getNthVisible_isSome hlt
        rw [heq] at this
        simp at this
      | some n =>
        simp
        omega
  · simp only [Opt.deleteLocal]
    cases heq : Opt.deleteWalk st.sequence st.tombstones i with
    | none =>
      have h := Opt.deleteWalk_isSome st.sequence st.tombstones i
      rw [heq] at h
      simp only [Option.isSome_none, Bool.false_eq_true, false_iff] at h
      simp only [Option.isSome_none, Bool.false_eq_true, false_iff]
      exact h
    | some r =>
      have h := Opt.deleteWalk_isSome st.sequence st.tombstones i
      rw [heq] at h
      simp only [Option.isSome_some, true_iff] at h
      simpa using h
  · simp only [Opt.deleteLocal]
    cases heq : Opt.deleteWalk st.sequence st.tombstones i with
    | none => simp
    | some r => simp
  · exact Opt.visible_mem_bump rfl
      (Seq.self_mem_insertAt _ _ st.sequence)

/-- C7 counterexample: `OptimizedSequenceCRDT.insert` at index 5 on an
*empty* CRDT (visible length 0) succeeds instead of failing with an
out-of-bounds error: the character is appended and the text becomes
`"a"`. -/
theorem opt_insert_no_bounds_counterexample :
    Opt.getText (Opt.insertLocal (Opt.initO "s" 0) 5 "a" 0).1 = "a" ∧
    (Opt.insertLocal (Opt.initO "s" 0) 5 "a" 0).1.sequence.length = 1 := by
  refine ⟨by decide, by decide⟩

/-- C7 witness: the bounds theorem applied to a fresh legacy CRDT at
index 0 (in bounds, succeeds). -/
theorem local_edit_bounds_amended_witness :
    (Seq.localInsert (fun a _ => a) (Seq.init "s") 0 "x").isSome = true :=
  (local_edit_bounds_amended.1 (fun a _ => a) (Seq.init "s") 0 "x"
    (by decide)).mpr (by decide)

namespace Mgr

theorem lookupDoc_eq_none_iff {α : Type} (d : String) :
    ∀ l : List (String × α), lookupDoc l d = none ↔ d ∉ l.map Prod.fst := by
  intro l
  induction l with
  | nil => simp [lookupDoc]
  | cons kv l ih =>
    cases kv with
    | mk k v =>
      by_cases hk : k = d
      · subst hk
        simp [lookupDoc]
      · simp [lookupDoc, hk, ih, Ne.symm hk]

theorem eraseDoc_keys_not_mem {α : Type} (d : String) :
    ∀ {l : List (String × α)}, (l.map Prod.fst).Nodup →
      d ∉ (eraseDoc l d).map Prod.fst := by
  intro l
  induction l with
  | nil => intro _; simp [eraseDoc]
  | cons kv l ih =>
    cases kv with
    | mk k v =>
      intro hnd
      simp only [List.map_cons, List.nodup_cons] at hnd
      by_cases hk : k = d
      · subst hk
        simpa [eraseDoc] using hnd.1
      · simp only [eraseDoc, if_neg hk, List.map_cons, List.mem_cons]
        rintro (h | h)
        · exact hk h.symm
        · exact ih hnd.2 h

theorem eraseDoc_append_of_not_mem {α : Type} (d : String)
    {l1 l2 : List (String × α)} (h : d ∉ l1.map Prod.fst) :
    eraseDoc (l1 ++ l2) d = l1 ++ eraseDoc l2 d := by
  induction l1 with
  | nil => simp
  | cons kv l ih =>
    cases kv with
    | mk k v =>
      simp only [List.map_cons, List.mem_cons, not_or] at h
      have hk : ¬(k = d) := fun hk => h.1 hk.symm
      simp only [List.cons_append, eraseDoc, if_neg hk]
      show (k, v) :: eraseDoc (l ++ l2) d = (k, v) :: (l ++ eraseDoc l2 d)
      rw [ih h.2]

end Mgr

/-- C8 (amended): the 5,242,880-byte persist gate.  In the optimized
manager an oversized serialized state makes `_save_document_state`
return with no write and the cache — in particular the document's
in-memory CRDT — untouched.  In the legacy manager, however, the gate
*deletes* the oversized document's CRDT from the cache (the carve-out
the counterexample forces), so the in-memory state does not remain
cached.  `dumpsLen` abstracts `len(json.dumps(crdt.to_dict()))`. -/
theorem persist_gate_amended :
    (∀ (dumpsLen : Opt.OState → Nat) (cache : List (String × Opt.OState))
       (d : String) (found : Bool) (s : Opt.OState),
      Mgr.lookupDoc cache d = some s → dumpsLen s > 5242880 →
      Mgr.saveDocumentStateO dumpsLen cache d found = (cache, false)) ∧
    (∀ (dumpsLen : Seq.SequenceCRDT → Nat)
       (cache : List (String × Seq.SequenceCRDT))
       (d : String) (found : Bool) (s : Seq.SequenceCRDT),
      (cache.map Prod.fst).Nodup →
      Mgr.lookupDoc cache d = some s → dumpsLen s > 5242880 →
      Mgr.lookupDoc (Mgr.saveDocumentState dumpsLen cache d found).1 d = none ∧
      (Mgr.saveDocumentState dumpsLen cache d found).2 = false) := by
  constructor
  · intro dumpsLen cache d found s hl hsz
    simp [Mgr.saveDocumentStateO, hl, hsz]
  · intro dumpsLen cache d found s hnd hl hsz
    have hkeys : d ∉ (Mgr.eraseDoc cache d).map Prod.fst :=
      Mgr.eraseDoc_keys_not_mem d hnd
    have herase :
        Mgr.eraseDoc (Mgr.eraseDoc cache d ++ [(d, s)]) d =
          Mgr.eraseDoc cache d := by
      rw [Mgr.eraseDoc_append_of_not_mem d hkeys]
      simp [Mgr.eraseDoc]
    simp only [Mgr.saveDocumentState, Mgr.lruGet, hl]
    rw [if_pos hsz]
    refine ⟨?_, rfl⟩
    rw [herase]
    exact (Mgr.lookupDoc_eq_none_iff d _).mpr hkeys

/-- C8 counterexample: in the legacy manager, with a cached document
`"d"` whose serialized size is 6,000,000 bytes (over the 5,242,880
limit), the save deletes the CRDT from the cache — the in-memory state
does *not* remain cached as claimed. -/
theorem persist_gate_eviction_counterexample :
    Mgr.lookupDoc (Mgr.saveDocumentState (fun _ => 6000000)
      [("d", Seq.init "s")] "d" true).1 "d" = none := by
  decide

/-- C8 witness: the amended gate theorem applied to singleton caches
with a constant oversized serializer. -/
theorem persist_gate_amended_witness :
    Mgr.saveDocumentStateO (fun _ => 6000000) [("d", Opt.initO "s" 0)] "d" true =
      ([("d", Opt.initO "s" 0)], false) ∧
    Mgr.lookupDoc (Mgr.saveDocumentState (fun _ => 6000000)
      [("d", Seq.init "s")] "d" true).1 "d" = none :=
  ⟨persist_gate_amended.1 (fun _ => 6000000) [("d", Opt.initO "s" 0)] "d" true
      (Opt.initO "s" 0) (by decide) (by decide),
   (persist_gate_amended.2 (fun _ => 6000000) [("d", Seq.init "s")] "d" true
      (Seq.init "s") (by decide) (by decide) (by decide)).1⟩

/-- C9 (amended): the optimized manager's CRDT cache never grows past
`max_cached_crdts = 20` — at the limit one entry is evicted before the
new document is admitted — but the evicted entry is simply the
first-inserted key of the dictionary, chosen with no regard to
subscribers or recency, and admission never fails with `AtCapacity`. -/
theorem cache_bound_amended :
    (∀ (cache : List (String × Opt.OState)) (d : String) (found : Bool)
       (loaded : Opt.OState) (c' : List (String × Opt.OState)),
      cache.length ≤ 20 →
      Mgr.initializeDocumentCrdt cache d found loaded = some c' →
      c'.length ≤ 20) ∧
    (∀ (e : String × Opt.OState) (rest : List (String × Opt.OState))
       (d : String) (found : Bool) (loaded : Opt.OState)
       (c' : List (String × Opt.OState)),
      (e :: rest).length = 20 → e.1 ∉ rest.map Prod.fst → d ≠ e.1 →
      Mgr.initializeDocumentCrdt (e :: rest) d found loaded = some c' →
      e.1 ∉ c'.map Prod.fst) := by
  constructor
  · intro cache d found loaded c' hlen h
    by_cases hcap : cache.length ≥ 20
    · simp only [Mgr.initializeDocumentCrdt, if_pos hcap] at h
      have hdrop : (cache.drop 1).length ≤ 19 := by
        rw [List.length_drop]
        omega
      split at h
      · cases h
        omega
      · split at h
        · cases h
          simp only [List.length_append, List.length_cons, List.length_nil]
          omega
        · cases h
    · simp only [Mgr.initializeDocumentCrdt, if_neg hcap] at h
      split at h
      · cases h
        omega
      · split at h
        · cases h
          simp only [List.length_append, List.length_cons, List.length_nil]
          omega
        · cases h
  · intro e rest d found loaded c' hlen hnotin hne h
    have hcap : (e :: rest).length ≥ 20 := by omega
    simp only [Mgr.initializeDocumentCrdt, if_pos hcap] at h
    simp only [List.drop_one, List.tail_cons] at h
    split at h
    · cases h
      exact hnotin
    · split at h
      · cases h
        simp only [List.map_append, List.map_cons, List.map_nil,
          List.mem_append, List.mem_cons, List.not_mem_nil, or_false]
        rintro (hm | hm)
        · exact hnotin hm
        · exact hne hm.symm
      · cases h

/-- C9 counterexample: with the cache at its 20-entry limit, admitting
a new document evicts the *first-inserted* document `"doc0"` even
though (in the modelled connection table) `"doc0"` has a live
subscriber, while other cached rooms have none — contradicting that a
room with live subscribers is never evicted and that the
least-recently-active empty room is chosen. -/
theorem eviction_policy_counterexample :
    (∀ c' ∈ Mgr.initializeDocumentCrdt
        ((List.range 20).map (fun i => ("doc" ++ toString i, Opt.initO "s" 0)))
        "new" true (Opt.initO "s" 0),
      "doc0" ∉ c'.map Prod.fst) ∧
    Mgr.lookupDoc ([("doc0", 1)] ++
      (List.range 19).map (fun i => ("doc" ++ toString (i + 1), 0)))
      "doc0" = some 1 := by
  refine ⟨by decide, by decide⟩

/-- C9 witness: the amended bound theorem applied to the concrete
20-entry cache. -/
theorem cache_bound_amended_witness :
    ∀ c' ∈ Mgr.initializeDocumentCrdt
        ((List.range 20).map (fun i => ("doc" ++ toString i, Opt.initO "s" 0)))
        "new" true (Opt.initO "s" 0),
      c'.length ≤ 20 := fun c' hc' =>
  cache_bound_amended.1
    ((List.range 20).map (fun i => ("doc" ++ toString i, Opt.initO "s" 0)))
    "new" true (Opt.initO "s" 0) c' (by decide) hc'

namespace Opt

theorem bump_of_lt {now : Int} {st : OState}
    (h : st.operations_since_compaction + 1 < 1000) :
    bumpAndMaybeCompact now st =
      { st with operations_since_compaction :=
          st.operations_since_compaction + 1 } := by
  unfold bumpAndMaybeCompact
  dsimp only
  rw [if_neg (by omega)]

theorem contains_addTomb_self (t : List String) (x : String) :
    (addTomb t x).contains x = true := by
  by_cases hx : x ∈ t
  · simp [addTomb, hx]
  · simp [addTomb, hx]

theorem markFirst_eq_self :
    ∀ {xs : List ONode} {i : String},
      xs.any (fun m => m.id = i) = false → markFirst xs i = xs := by
  intro xs
  induction xs with
  | nil => intro i _; rfl
  | cons n ns ih =>
    intro i h
    by_cases hn : n.id = i
    · simp [List.any_cons, hn] at h
    · simp only [List.any_cons, Bool.or_eq_false_iff] at h
      simp [markFirst, hn, ih h.2]

theorem markFirst_any :
    ∀ (xs : List ONode) (i j : String),
      (markFirst xs i).any (fun m => m.id = j) =
        xs.any (fun m => m.id = j) := by
  intro xs
  induction xs with
  | nil => intro i j; rfl
  | cons n ns ih =>
    intro i j
    by_cases hn : n.id = i
    · simp [markFirst, hn, List.any_cons]
    · simp [markFirst, hn, List.any_cons, ih]

theorem getTextAux_markFirst :
    ∀ {xs : List ONode} {t : List String} {i : String},
      t.contains i = true →
      getTextAux (markFirst xs i) t = getTextAux xs t := by
  intro xs
  induction xs with
  | nil => intro t i _; rfl
  | cons n ns ih =>
    intro t i h
    have hmem : i ∈ t := by simpa using h
    by_cases hn : n.id = i
    · simp [markFirst, hn, getTextAux, hmem]
    · simp [markFirst, hn, getTextAux, ih h]

theorem applyR_insOp_dup {now : Int} {st : OState} {w : WireNode}
    {X c : String} (hid : w.id = some X) (hchar : w.char = some c)
    (hmem : (st.sequence.any fun m => m.id = X) = true) :
    applyR now st (insOpOf w) = st := by
  have hid' : ({ w with position := none } : WireNode).id = some X := hid
  have hchar' : ({ w with position := none } : WireNode).char = some c := hchar
  simp only [applyR, applyRemote, insOpOf]
  rw [hid', hchar']
  dsimp only
  rw [if_pos trivial, if_pos hmem]

theorem applyR_insOp_new {now : Int} {st : OState} {w : WireNode}
    {X c : String} (hid : w.id = some X) (hchar : w.char = some c)
    (hmem : (st.sequence.any fun m => m.id = X) = false)
    (hops : st.operations_since_compaction + 1 < 1000) :
    applyR now st (insOpOf w) =
      { st with
        sequence := Seq.insertAt (findInsertPosition st.sequence X)
          ⟨X, c, w.visible.getD true, w.timestamp.getD now⟩ st.sequence
        operations_since_compaction :=
          st.operations_since_compaction + 1 } := by
  have hid' : ({ w with position := none } : WireNode).id = some X := hid
  have hchar' : ({ w with position := none } : WireNode).char = some c := hchar
  simp only [applyR, applyRemote, insOpOf]
  rw [hid', hchar']
  dsimp only
  rw [if_pos trivial, if_neg (by rw [hmem]; simp)]
  refine (bump_of_lt ?_).trans ?_
  · exact hops
  · rfl

theorem applyR_insOp_step {now : Int} {st : OState} {w : WireNode}
    {X c : String} (hid : w.id = some X) (hchar : w.char = some c)
    (hmem : (st.sequence.any fun m => m.id = X) = false) :
    applyR now st (insOpOf w) =
      bumpAndMaybeCompact now
        { st with
          sequence := Seq.insertAt (findInsertPosition st.sequence X)
            ⟨X, c, w.visible.getD true, w.timestamp.getD now⟩ st.sequence } := by
  have hid' : ({ w with position := none } : WireNode).id = some X := hid
  have hchar' : ({ w with position := none } : WireNode).char = some c := hchar
  simp only [applyR, applyRemote, insOpOf]
  rw [hid', hchar']
  dsimp only
  rw [if_pos trivial, if_neg (by rw [hmem]; simp)]
  rfl

theorem applyR_delOp {now : Int} {st : OState} {X : String}
    (hX : ¬(X = ""))
    (hops : st.operations_since_compaction + 1 < 1000) :
    applyR now st (delOpOf X) =
      { st with
        tombstones := addTomb st.tombstones X
        sequence := markFirst st.sequence X
        operations_since_compaction :=
          st.operations_since_compaction + 1 } := by
  simp only [applyR, applyRemote, delOpOf, resolveDeleteId]
  rw [if_neg (by decide), if_pos trivial, if_neg hX]
  refine (bump_of_lt ?_).trans ?_
  · exact hops
  · rfl

end Opt

namespace Seq

theorem posIdsLt_self_append :
    ∀ (xs : List Int) (z : Int) (zs : List Int),
      posIdsLt xs (xs ++ z :: zs) = some true := by
  intro xs z zs
  induction xs with
  | nil => rfl
  | cons a as ih => simp [posIdsLt, lt_irrefl, ih]

theorem posIdsLt_append_self :
    ∀ (xs : List Int) (z : Int) (zs : List Int),
      posIdsLt (xs ++ z :: zs) xs = some false := by
  intro xs z zs
  induction xs with
  | nil => rfl
  | cons a as ih => simp [posIdsLt, lt_irrefl, ih]

theorem posIdsLt_append_lt :
    ∀ (pre : List Int) (a b : Int) (as bs : List Int), a < b →
      posIdsLt (pre ++ a :: as) (pre ++ b :: bs) = some true := by
  intro pre
  induction pre with
  | nil => intro a b as bs h; simp [posIdsLt, h]
  | cons x pre ih =>
    intro a b as bs h
    simp [posIdsLt, lt_irrefl, ih _ _ _ _ h]

theorem posIdsLt_append_val :
    ∀ (pre : List Int) (a b : Int) (as bs : List Int), a ≠ b →
      posIdsLt (pre ++ a :: as) (pre ++ b :: bs) = some (decide (a < b)) := by
  intro pre
  induction pre with
  | nil =>
    intro a b as bs hne
    rcases lt_trichotomy a b with h | h | h
    · simp [posIdsLt, h]
    · exact absurd h hne
    · simp [posIdsLt, h, not_lt_of_gt h, le_of_lt h]
  | cons x pre ih =>
    intro a b as bs hne
    simp [posIdsLt, lt_irrefl, ih _ _ _ _ hne]

theorem commonLen_le_left :
    ∀ xs ys : List Int, commonLen xs ys ≤ xs.length := by
  intro xs
  induction xs with
  | nil => intro ys; cases ys <;> simp [commonLen]
  | cons a as ih =>
    intro ys
    cases ys with
    | nil => simp [commonLen]
    | cons b bs =>
      by_cases hab : a = b
      · simpa [commonLen, hab] using ih bs
      · simp [commonLen, hab]

theorem commonLen_le_right :
    ∀ xs ys : List Int, commonLen xs ys ≤ ys.length := by
  intro xs
  induction xs with
  | nil => intro ys; cases ys <;> simp [commonLen]
  | cons a as ih =>
    intro ys
    cases ys with
    | nil => simp [commonLen]
    | cons b bs =>
      by_cases hab : a = b
      · simpa [commonLen, hab] using ih bs
      · simp [commonLen, hab]

theorem take_commonLen :
    ∀ xs ys : List Int,
      xs.take (commonLen xs ys) = ys.take (commonLen xs ys) := by
  intro xs
  induction xs with
  | nil => intro ys; cases ys <;> simp [commonLen]
  | cons a as ih =>
    intro ys
    cases ys with
    | nil => simp [commonLen]
    | cons b bs =>
      by_cases hab : a = b
      · simp [commonLen, hab, ih bs]
      · simp [commonLen, hab]

theorem getD_commonLen_ne :
    ∀ xs ys : List Int,
      commonLen xs ys < xs.length → commonLen xs ys < ys.length →
      xs.getD (commonLen xs ys) 0 ≠ ys.getD (commonLen xs ys) 0 := by
  intro xs
  induction xs with
  | nil => intro ys h1 _; simp [commonLen] at h1
  | cons a as ih =>
    intro ys h1 h2
    cases ys with
    | nil => simp [commonLen] at h2
    | cons b bs =>
      by_cases hab : a = b
      · subst hab
        have hc : commonLen (a :: as) (a :: bs) = commonLen as bs + 1 := by
          simp [commonLen]
        rw [hc] at h1 h2 ⊢
        rw [List.getD_cons_succ, List.getD_cons_succ]
        simp only [List.length_cons] at h1 h2
        exact ih bs (by omega) (by omega)
      · have hc : commonLen (a :: as) (b :: bs) = 0 := by
          simp [commonLen, hab]
        rw [hc, List.getD_cons_zero, List.getD_cons_zero]
        exact hab

theorem drop_decomp :
    ∀ (l : List Int) (n : Nat), n < l.length →
      l = l.take n ++ l.getD n 0 :: l.drop (n + 1) := by
  intro l
  induction l with
  | nil => intro n h; simp at h
  | cons a as ih =>
    intro n h
    cases n with
    | zero => simp [List.getD]
    | succ n =>
      simp only [List.length_cons, Nat.succ_lt_succ_iff] at h
      simpa [List.getD] using ih n h

theorem posLt_of_ids {p q : Position}
    (h : posIdsLt p.identifiers q.identifiers = some true) :
    posLt p q = true := by
  simp [posLt, h]

theorem commonLen_append_ne {a b : Int} (hab : a ≠ b) :
    ∀ (pre : List Int) (as bs : List Int),
      commonLen (pre ++ a :: as) (pre ++ b :: bs) = pre.length := by
  intro pre
  induction pre with
  | nil => intro as bs; simp [commonLen, hab]
  | cons x pre ih => intro as bs; simp [commonLen, ih]

theorem getD_append_cons (a : Int) :
    ∀ (pre as : List Int), (pre ++ a :: as).getD pre.length 0 = a := by
  intro pre
  induction pre with
  | nil => intro as; simp [List.getD_cons_zero]
  | cons x pre ih => intro as; simpa [List.getD_cons_succ] using ih as

theorem drop_append_cons (a : Int) :
    ∀ (pre as : List Int), (pre ++ a :: as).drop (pre.length + 1) = as := by
  intro pre
  induction pre with
  | nil => intro as; simp
  | cons x pre ih => intro as; simp [ih as]

theorem posLt_append_ne {ps qs : String} {pre : List Int} {a b : Int}
    {as bs : List Int} (hab : a ≠ b)
    (h : posLt ⟨pre ++ a :: as, ps⟩ ⟨pre ++ b :: bs, qs⟩ = true) : a < b := by
  have hv := posIdsLt_append_val pre a b as bs hab
  simp only [posLt, hv] at h
  simpa using h

theorem genIds_div_gap (rand : Int → Int → Int) (site : String) (clock : Int)
    {p q : Position}
    (h1 : commonLen p.identifiers q.identifiers < p.identifiers.length)
    (h2 : commonLen p.identifiers q.identifiers < q.identifiers.length)
    (h3 : q.identifiers.getD (commonLen p.identifiers q.identifiers) 0 -
          p.identifiers.getD (commonLen p.identifiers q.identifiers) 0 > 1) :
    (generatePositionBetween rand site clock p q).1.identifiers =
      p.identifiers.take (commonLen p.identifiers q.identifiers) ++
        [rand (p.identifiers.getD (commonLen p.identifiers q.identifiers) 0 + 1)
              (q.identifiers.getD (commonLen p.identifiers q.identifiers) 0 - 1)] := by
  simp only [generatePositionBetween]
  rw [if_pos h1, if_pos h2, if_pos h3]

theorem genIds_div_tight (rand : Int → Int → Int) (site : String) (clock : Int)
    {p q : Position}
    (h1 : commonLen p.identifiers q.identifiers < p.identifiers.length)
    (h2 : commonLen p.identifiers q.identifiers < q.identifiers.length)
    (h3 : ¬(q.identifiers.getD (commonLen p.identifiers q.identifiers) 0 -
            p.identifiers.getD (commonLen p.identifiers q.identifiers) 0 > 1)) :
    (generatePositionBetween rand site clock p q).1.identifiers =
      p.identifiers.take (commonLen p.identifiers q.identifiers) ++
        [p.identifiers.getD (commonLen p.identifiers q.identifiers) 0] ++
        p.identifiers.drop (commonLen p.identifiers q.identifiers + 1) ++
        [rand 1 65536] := by
  simp only [generatePositionBetween]
  rw [if_pos h1, if_pos h2, if_neg h3]

theorem genIds_prefix_big (rand : Int → Int → Int) (site : String) (clock : Int)
    {p q : Position}
    (h1 : ¬(commonLen p.identifiers q.identifiers < p.identifiers.length))
    (h2 : commonLen p.identifiers q.identifiers < q.identifiers.length)
    (h3 : q.identifiers.getD (commonLen p.identifiers q.identifiers) 0 > 1) :
    (generatePositionBetween rand site clock p q).1.identifiers =
      p.identifiers.take (commonLen p.identifiers q.identifiers) ++
        [rand 1 (q.identifiers.getD (commonLen p.identifiers q.identifiers) 0 - 1)] := by
  simp only [generatePositionBetween]
  rw [if_neg h1, if_pos h2, if_pos h3]

theorem genIds_prefix_small (rand : Int → Int → Int) (site : String)
    (clock : Int) {p q : Position}
    (h1 : ¬(commonLen p.identifiers q.identifiers < p.identifiers.length))
    (h2 : commonLen p.identifiers q.identifiers < q.identifiers.length)
    (h3 : ¬(q.identifiers.getD (commonLen p.identifiers q.identifiers) 0 > 1)) :
    (generatePositionBetween rand site clock p q).1.identifiers =
      p.identifiers.take (commonLen p.identifiers q.identifiers) ++
        [0, rand 1 65536] := by
  simp only [generatePositionBetween]
  rw [if_neg h1, if_pos h2, if_neg h3]

theorem genIds_equal (rand : Int → Int → Int) (site : String) (clock : Int)
    {p q : Position}
    (h1 : ¬(commonLen p.identifiers q.identifiers < p.identifiers.length))
    (h2 : ¬(commonLen p.identifiers q.identifiers < q.identifiers.length)) :
    (generatePositionBetween rand site clock p q).1.identifiers =
      p.identifiers.take (commonLen p.identifiers q.identifiers) ++
        [rand 1 65536] := by
  simp only [generatePositionBetween]
  rw [if_neg h1, if_neg h2]

theorem gen_strict_div (rand : Int → Int → Int)
    (hrand : ∀ a b : Int, a ≤ b → a ≤ rand a b ∧ rand a b ≤ b)
    (site : String) (clock : Int) (p q : Position)
    (pre : List Int) (l r : Int) (xt yt : List Int)
    (hx : p.identifiers = pre ++ l :: xt)
    (hy : q.identifiers = pre ++ r :: yt)
    (hlr : l < r) :
    posLt p (generatePositionBetween rand site clock p q).1 = true ∧
    posLt (generatePositionBetween rand site clock p q).1 q = true := by
  have hcl : commonLen p.identifiers q.identifiers = pre.length := by
    rw [hx, hy]
    exact commonLen_append_ne (ne_of_lt hlr) pre xt yt
  have htk : p.identifiers.take (commonLen p.identifiers q.identifiers) = pre := by
    rw [hcl, hx]
    exact List.take_left pre (l :: xt)
  have hgd : p.identifiers.getD (commonLen p.identifiers q.identifiers) 0 = l := by
    rw [hcl, hx]
    exact getD_append_cons l pre xt
  have hgd' : q.identifiers.getD (commonLen p.identifiers q.identifiers) 0 = r := by
    rw [hcl, hy]
    exact getD_append_cons r pre yt
  have hdp : p.identifiers.drop (commonLen p.identifiers q.identifiers + 1) = xt := by
    rw [hcl, hx]
    exact drop_append_cons l pre xt
  have h1 : commonLen p.identifiers q.identifiers < p.identifiers.length := by
    rw [hcl, hx]
    simp
  have h2 : commonLen p.identifiers q.identifiers < q.identifiers.length := by
    rw [hcl, hy]
    simp
  by_cases h3 : q.identifiers.getD (commonLen p.identifiers q.identifiers) 0 -
      p.identifiers.getD (commonLen p.identifiers q.identifiers) 0 > 1
  · have h3' : r - l > 1 := by rw [hgd, hgd'] at h3; exact h3
    have hm := hrand (l + 1) (r - 1) (by omega)
    have hids := genIds_div_gap rand site clock h1 h2 h3
    rw [htk, hgd, hgd'] at hids
    constructor
    · apply posLt_of_ids
      rw [hids, hx]
      exact posIdsLt_append_lt pre l _ xt [] (by omega)
    · apply posLt_of_ids
      rw [hids, hy]
      exact posIdsLt_append_lt pre _ r [] yt (by omega)
  · have hk := hrand 1 65536 (by norm_num)
    have hids := genIds_div_tight rand site clock h1 h2 h3
    rw [htk, hgd, hdp] at hids
    constructor
    · apply posLt_of_ids
      rw [hids, hx]
      have hform : pre ++ [l] ++ xt ++ [rand 1 65536] =
          (pre ++ l :: xt) ++ [rand 1 65536] := by
        simp
      rw [hform]
      exact posIdsLt_self_append _ _ _
    · apply posLt_of_ids
      rw [hids, hy]
      have hform : pre ++ [l] ++ xt ++ [rand 1 65536] =
          pre ++ l :: (xt ++ [rand 1 65536]) := by
        simp
      rw [hform]
      exact posIdsLt_append_lt pre l r _ yt hlr

end Seq

/-- C3 (amended): position generation with an admissible `randint`
oracle always yields `p < r`; and `r < q` additionally holds whenever
the identifier lists of `p` and `q` both still have a component at
their first point of divergence (the genuine Logoot case).  The
carve-out the counterexample forces: when `p`'s identifier list is a
(proper or improper) prefix of `q`'s — in particular when the two
lists are identical and only the site tags differ — the generated
position extends `p`'s list and may exceed `q`. -/
theorem generate_between_strict (rand : Int → Int → Int)
    (hrand : ∀ a b : Int, a ≤ b → a ≤ rand a b ∧ rand a b ≤ b)
    (site : String) (clock : Int) (p q : Seq.Position)
    (hpq : Seq.posLt p q = true) :
    Seq.posLt p (Seq.generatePositionBetween rand site clock p q).1 = true ∧
    (Seq.commonLen p.identifiers q.identifiers < p.identifiers.length →
     Seq.commonLen p.identifiers q.identifiers < q.identifiers.length →
     Seq.posLt (Seq.generatePositionBetween rand site clock p q).1 q = true) := by
  by_cases h1 : Seq.commonLen p.identifiers q.identifiers < p.identifiers.length
  · by_cases h2 : Seq.commonLen p.identifiers q.identifiers < q.identifiers.length
    · have hne := Seq.getD_commonLen_ne _ _ h1 h2
      have hx := Seq.drop_decomp p.identifiers _ h1
      have hy0 := Seq.drop_decomp q.identifiers _ h2
      rw [← Seq.take_commonLen p.identifiers q.identifiers] at hy0
      have hpq2 : Seq.posLt
          ⟨p.identifiers.take (Seq.commonLen p.identifiers q.identifiers) ++
            p.identifiers.getD (Seq.commonLen p.identifiers q.identifiers) 0 ::
            p.identifiers.drop (Seq.commonLen p.identifiers q.identifiers + 1),
           p.site_id⟩
          ⟨p.identifiers.take (Seq.commonLen p.identifiers q.identifiers) ++
            q.identifiers.getD (Seq.commonLen p.identifiers q.identifiers) 0 ::
            q.identifiers.drop (Seq.commonLen p.identifiers q.identifiers + 1),
           q.site_id⟩ = true := by
        rw [← hx, ← hy0]
        exact hpq
      have hlr := Seq.posLt_append_ne hne hpq2
      have hmain := Seq.gen_strict_div rand hrand site clock p q _ _ _ _ _
        hx hy0 hlr
      exact ⟨hmain.1, fun _ _ => hmain.2⟩
    · exfalso
      have hd : Seq.commonLen p.identifiers q.identifiers =
          q.identifiers.length :=
        le_antisymm (Seq.commonLen_le_right _ _) (not_lt.mp h2)
      have hyfull : p.identifiers.take
          (Seq.commonLen p.identifiers q.identifiers) = q.identifiers := by
        rw [Seq.take_commonLen p.identifiers q.identifiers, hd]
        exact List.take_length _
      have hx := Seq.drop_decomp p.identifiers _ h1
      have hfalse : Seq.posIdsLt p.identifiers q.identifiers = some false := by
        conv_lhs => rw [hx, hyfull]
        exact Seq.posIdsLt_append_self _ _ _
      simp [Seq.posLt, hfalse] at hpq
  · have hd : Seq.commonLen p.identifiers q.identifiers =
        p.identifiers.length :=
      le_antisymm (Seq.commonLen_le_left _ _) (not_lt.mp h1)
    have hxfull : p.identifiers.take
        (Seq.commonLen p.identifiers q.identifiers) = p.identifiers := by
      rw [hd]
      exact List.take_length _
    refine ⟨?_, fun h1' _ => absurd h1' h1⟩
    by_cases h2 : Seq.commonLen p.identifiers q.identifiers <
        q.identifiers.length
    · by_cases h3 : q.identifiers.getD
          (Seq.commonLen p.identifiers q.identifiers) 0 > 1
      · have hids := Seq.genIds_prefix_big rand site clock h1 h2 h3
        rw [hxfull] at hids
        apply Seq.posLt_of_ids
        rw [hids]
        exact Seq.posIdsLt_self_append _ _ _
      · have hids := Seq.genIds_prefix_small rand site clock h1 h2 h3
        rw [hxfull] at hids
        apply Seq.posLt_of_ids
        rw [hids]
        exact Seq.posIdsLt_self_append _ _ _
    · have hids := Seq.genIds_equal rand site clock h1 h2
      rw [hxfull] at hids
      apply Seq.posLt_of_ids
      rw [hids]
      exact Seq.posIdsLt_self_append _ _ _

/-- C3 counterexample: for `p = ([5], "A")` and `q = ([5], "B")` —
identical identifier lists, different site tags, `p < q` — the
generated position extends `p`'s list with a fresh component, so it is
*greater* than `q`, not strictly between (here with the admissible
oracle that always returns the lower bound). -/
theorem generate_between_counterexample :
    Seq.posLt ⟨[5], "A"⟩ ⟨[5], "B"⟩ = true ∧
    Seq.posLt (Seq.generatePositionBetween (fun a _ => a) "s" 0
      ⟨[5], "A"⟩ ⟨[5], "B"⟩).1 ⟨[5], "B"⟩ = false ∧
    Seq.posLt ⟨[5], "B"⟩ (Seq.generatePositionBetween (fun a _ => a) "s" 0
      ⟨[5], "A"⟩ ⟨[5], "B"⟩).1 = true := by
  refine ⟨by decide, by decide, by decide⟩

/-- C3 witness: the strictness theorem applied to `p = ([1], "A")`,
`q = ([3], "A")` with the lower-bound oracle: the generated position
lies strictly between them. -/
theorem generate_between_strict_witness :
    Seq.posLt ⟨[1], "A"⟩ (Seq.generatePositionBetween (fun a _ => a) "s" 0
      ⟨[1], "A"⟩ ⟨[3], "A"⟩).1 = true ∧
    Seq.posLt (Seq.generatePositionBetween (fun a _ => a) "s" 0
      ⟨[1], "A"⟩ ⟨[3], "A"⟩).1 ⟨[3], "A"⟩ = true :=
  have h := generate_between_strict (fun a _ => a)
    (fun a _ hab => ⟨le_refl a, hab⟩) "s" 0 ⟨[1], "A"⟩ ⟨[3], "A"⟩ (by decide)
  ⟨h.1, h.2 (by decide) (by decide)⟩

/-- C1 (amended): the two algebraic facts that survive on the code.
On the `OptimizedSequenceCRDT`, a `Delete(id=X)` and an `Insert` of a
node with id `X` commute in `text()` on *every* state that stays below
the compaction threshold during the two applications: the tombstone
set hides the character whichever side applies the delete first.  On
the legacy `SequenceCRDT` the claimed commutativity fails: a delete
arriving before its insert is dropped, which the counterexample
exhibits. -/
theorem opt_insert_delete_commute_text (now : Int) (st : Opt.OState)
    (X c : String) (w : Opt.WireNode)
    (hX : ¬(X = "")) (hid : w.id = some X) (hchar : w.char = some c)
    (hops : st.operations_since_compaction + 2 < 1000) :
    Opt.getText (Opt.applyR now (Opt.applyR now st (Opt.insOpOf w))
      (Opt.delOpOf X)) =
    Opt.getText (Opt.applyR now (Opt.applyR now st (Opt.delOpOf X))
      (Opt.insOpOf w)) := by
  by_cases hmem : (st.sequence.any fun m => m.id = X) = true
  · rw [Opt.applyR_insOp_dup hid hchar hmem,
      Opt.applyR_delOp hX (by omega),
      Opt.applyR_insOp_dup hid hchar
        ((Opt.markFirst_any st.sequence X X).trans hmem)]
  · have hmem' : (st.sequence.any fun m => m.id = X) = false := by
      simp only [Bool.not_eq_true] at hmem
      exact hmem
    rw [Opt.applyR_insOp_new hid hchar hmem' (by omega),
      Opt.applyR_delOp hX
        (show st.operations_since_compaction + 1 + 1 < 1000 by omega),
      Opt.applyR_delOp hX (by omega),
      Opt.markFirst_eq_self hmem']
    have hmem2 :
        ((⟨st.site_id, st.sequence, Opt.addTomb st.tombstones X, st.version,
          st.last_compaction, st.operations_since_compaction + 1⟩ :
          Opt.OState).sequence.any fun m => m.id = X) = false := hmem'
    rw [Opt.applyR_insOp_new hid hchar hmem2
      (show st.operations_since_compaction + 1 + 1 < 1000 by omega)]
    simp only [Opt.getText]
    exact Opt.getTextAux_markFirst (Opt.contains_addTomb_self st.tombstones X)

/-- C1 witness: the amended commutation theorem applied to a fresh
optimized CRDT and a concrete insert/delete pair. -/
theorem opt_insert_delete_commute_text_witness :
    Opt.getText (Opt.applyR 0 (Opt.applyR 0 (Opt.initO "s" 0)
      (Opt.insOpOf ⟨some "X", some "a", some true, some 0, none⟩))
      (Opt.delOpOf "X")) =
    Opt.getText (Opt.applyR 0 (Opt.applyR 0 (Opt.initO "s" 0)
      (Opt.delOpOf "X"))
      (Opt.insOpOf ⟨some "X", some "a", some true, some 0, none⟩)) :=
  opt_insert_delete_commute_text 0 (Opt.initO "s" 0) "X" "a"
    ⟨some "X", some "a", some true, some 0, none⟩
    (by decide) rfl rfl (by decide)

/-- C1 counterexample: on the legacy `SequenceCRDT`, applying
`Insert(X)` then `Delete(X)` to a fresh CRDT yields text `""`, while
applying `Delete(X)` then `Insert(X)` yields `"a"` — the two orders do
not commute. -/
theorem seq_apply_order_counterexample :
    Seq.getText (Seq.applyR (Seq.applyR (Seq.init "s")
      (.insert ⟨⟨[1], "A"⟩, "a", true⟩)) (.delete ⟨⟨[1], "A"⟩, "a", true⟩)) ≠
    Seq.getText (Seq.applyR (Seq.applyR (Seq.init "s")
      (.delete ⟨⟨[1], "A"⟩, "a", true⟩)) (.insert ⟨⟨[1], "A"⟩, "a", true⟩)) := by
  decide

/-- C5 (amended): idempotence of applyRemote, per variant.  The legacy
`SequenceCRDT` is idempotent in full — a second application of any
operation returns the identical state and result flag — and the
ten-replay insert scenario holds (one node with that position, text
`"a"`).  On the `OptimizedSequenceCRDT` the ten-replay scenario also
holds, and replaying an insert whose node is (or defaults to) visible
leaves the state unchanged, because the duplicate check returns before
any mutation; but — the carve-out the counterexample forces — a
replayed *delete* re-increments `operations_since_compaction`, so full
state idempotence fails there. -/
theorem apply_remote_idempotent :
    (∀ (st : Seq.SequenceCRDT) (op : Seq.SOp),
      Seq.applyRemote (Seq.applyRemote st op).1 op = Seq.applyRemote st op) ∧
    Seq.getText (Seq.applyRepeat 10 (Seq.init "s")
      (.insert ⟨⟨[1], "A"⟩, "a", true⟩)) = "a" ∧
    ((Seq.applyRepeat 10 (Seq.init "s")
      (.insert ⟨⟨[1], "A"⟩, "a", true⟩)).nodes.filter
      (fun m => Seq.posEq m.position ⟨[1], "A"⟩)).length = 1 ∧
    (∀ (now : Int) (st : Opt.OState) (w : Opt.WireNode) (X c : String),
      w.id = some X → w.char = some c →
      (w.visible = none ∨ w.visible = some true) →
      Opt.applyR now (Opt.applyR now st (Opt.insOpOf w)) (Opt.insOpOf w) =
        Opt.applyR now st (Opt.insOpOf w)) ∧
    Opt.getText (Opt.applyRepeat 10 0 (Opt.initO "s" 0)
      (Opt.insOpOf ⟨some "X", some "a", some true, some 0, none⟩)) = "a" ∧
    ((Opt.applyRepeat 10 0 (Opt.initO "s" 0)
      (Opt.insOpOf ⟨some "X", some "a", some true, some 0, none⟩)).sequence.filter
      (fun m => m.id = "X")).length = 1 := by
  refine ⟨fun st op => ?_, by decide, by decide, ?_, by decide, by decide⟩
  · cases op with
    | insert n =>
      show Seq.applyRemoteInsert (Seq.applyRemoteInsert st n).1 n =
        Seq.applyRemoteInsert st n
      unfold Seq.applyRemoteInsert
      cases h : Seq.setVisibleFirst st.nodes n.position n.visible with
      | some l => simp [Seq.setVisibleFirst_idem h]
      | none =>
        simp [Seq.setVisibleFirst_none_insertAt n (Seq.bisectLeft st.nodes n) h
          (Seq.posEq_refl n.position) rfl]
    | delete n =>
      show Seq.applyRemoteDelete (Seq.applyRemoteDelete st n).1 n =
        Seq.applyRemoteDelete st n
      unfold Seq.applyRemoteDelete
      cases h : Seq.setVisibleFirst st.nodes n.position false with
      | some l => simp [Seq.setVisibleFirst_idem h]
      | none => simp [h]
  · intro now st w X c hid hchar hvis
    by_cases hmem : (st.sequence.any fun m => m.id = X) = true
    · rw [Opt.applyR_insOp_dup hid hchar hmem, Opt.applyR_insOp_dup hid hchar hmem]
    · have hmem' : (st.sequence.any fun m => m.id = X) = false := by
        simp only [Bool.not_eq_true] at hmem
        exact hmem
      have hstep := @Opt.applyR_insOp_step now st w X c hid hchar hmem'
      have hv : w.visible.getD true = true := by
        rcases hvis with h | h <;> simp [h]
      have hnode_mem :
          (⟨X, c, w.visible.getD true, w.timestamp.getD now⟩ : Opt.ONode) ∈
            (Opt.applyR now st (Opt.insOpOf w)).sequence := by
        rw [hstep]
        exact Opt.visible_mem_bump hv (Seq.self_mem_insertAt _ _ _)
      have hmem2 :
          ((Opt.applyR now st (Opt.insOpOf w)).sequence.any
            fun m => m.id = X) = true := by
        simp only [List.any_eq_true]
        exact ⟨_, hnode_mem, by simp⟩
      exact Opt.applyR_insOp_dup hid hchar hmem2

/-- C5 counterexample: on the `OptimizedSequenceCRDT`, applying the
same delete twice is *not* the same as applying it once — every
application re-executes `operations_since_compaction += 1`, so the
counter reads 2 instead of 1 and the states differ. -/
theorem opt_idempotence_counterexample :
    Opt.applyR 0 (Opt.applyR 0 (Opt.initO "s" 0) (Opt.delOpOf "X"))
      (Opt.delOpOf "X") ≠ Opt.applyR 0 (Opt.initO "s" 0) (Opt.delOpOf "X") ∧
    (Opt.applyR 0 (Opt.applyR 0 (Opt.initO "s" 0) (Opt.delOpOf "X"))
      (Opt.delOpOf "X")).operations_since_compaction = 2 ∧
    (Opt.applyR 0 (Opt.initO "s" 0)
      (Opt.delOpOf "X")).operations_since_compaction = 1 := by
  refine ⟨by decide, by decide, by decide⟩

/-- C5 witness: the optimized duplicate-insert conjunct of the amended
idempotence theorem applied to a concrete visible insert on a fresh
CRDT. -/
theorem apply_remote_idempotent_witness :
    Opt.applyR 0 (Opt.applyR 0 (Opt.initO "s" 0)
      (Opt.insOpOf ⟨some "X", some "a", some true, some 0, none⟩))
      (Opt.insOpOf ⟨some "X", some "a", some true, some 0, none⟩) =
    Opt.applyR 0 (Opt.initO "s" 0)
      (Opt.insOpOf ⟨some "X", some "a", some true, some 0, none⟩) :=
  apply_remote_idempotent.2.2.2.1 0 (Opt.initO "s" 0)
    ⟨some "X", some "a", some true, some 0, none⟩ "X" "a" rfl rfl (Or.inr rfl)
